import Mathlib

/-!
Verification of the paper-analysis pipeline: a PDF text extractor
(`pdf_processor.py`), a chat-completion client (`api.py`) and a UI shell
(`main.py`).  The embedding below models, from the source:

* the JSON values the pipeline manipulates (`JVal`), together with a model of
  Python's `json.dumps(..., ensure_ascii=False, indent=2)` (`dumps`) and of
  `json.loads` (`loads`); JSON numbers are modelled as integers (the key-point
  schema uses only strings and lists of strings, and no claim involves
  fractional numbers);
* the truncation step applied before every model call (`truncateText`);
* the tolerant JSON-recovery step of `extract_key_points`
  (`findFencedJson`, `recoverCandidate`, `recoverJson`);
* the four pipeline operations, parameterised by the model-call outcome;
* `_call_api`'s error handling, including which diagnostics it logs
  (`call_api`);
* client construction (`deepSeekInit`);
* PDF validation (`validate_pdf`) and extraction (`extract_text`), the latter
  with an explicit record of whether the document handle was opened and
  closed, modelling the `try/finally` of the source.

Strings are modelled as `List Char`.  Characters that are awkward as literal
syntax are built from their code points.
-/

def dquote : Char := Char.ofNat 34

def bslash : Char := Char.ofNat 92

def lbrace : Char := Char.ofNat 123

def rbrace : Char := Char.ofNat 125

def lbrack : Char := Char.ofNat 91

def rbrack : Char := Char.ofNat 93

def btick : Char := Char.ofNat 96

def minusCh : Char := Char.ofNat 45

/-- Whitespace accepted between JSON tokens by Python's `json` module
(space, tab, newline, carriage return). -/
def isJWs (c : Char) : Bool := c = ' ' || c = '\t' || c = '\n' || c = '\r'

/-- Whitespace matched by Python's regex class over ASCII
(space, tab, newline, carriage return, vertical tab, form feed). -/
def isPyWs (c : Char) : Bool :=
  c = ' ' || c = '\t' || c = '\n' || c = '\r' || c = Char.ofNat 11 || c = Char.ofNat 12

mutual

/-- A JSON value as manipulated by the Python code (numbers restricted to
integers; an object is its insertion-ordered field list, a Python dict
corresponding to an object with pairwise-distinct keys). -/
inductive JVal : Type where
  | null : JVal
  | bool : Bool → JVal
  | num : Int → JVal
  | str : List Char → JVal
  | arr : JArr → JVal
  | obj : JObj → JVal

inductive JArr : Type where
  | nil : JArr
  | cons : JVal → JArr → JArr

inductive JObj : Type where
  | nil : JObj
  | cons : List Char → JVal → JObj → JObj

end

def digitCh (n : Nat) : Char := Char.ofNat (48 + n)

/-- Decimal digits of `n`, most significant first; the fuel argument is always
sufficient at `n + 1` calls. -/
def natCharsAux : Nat → Nat → List Char
  | 0, _ => []
  | fuel + 1, n =>
    if n < 10 then [digitCh n] else natCharsAux fuel (n / 10) ++ [digitCh (n % 10)]

def natChars (n : Nat) : List Char := natCharsAux (n + 1) n

/-- Rendering of a Python int by `json.dumps` (its `repr`). -/
def intChars (n : Int) : List Char :=
  if n < 0 then minusCh :: natChars n.natAbs else natChars n.natAbs

def hexDigitCh (n : Nat) : Char :=
  if n < 10 then Char.ofNat (48 + n) else Char.ofNat (87 + n)

/-- Escaping of one character inside a JSON string by Python's
`json.dumps(..., ensure_ascii=False)` (`ESCAPE_DCT`): quote, backslash and the
named control characters get two-character escapes, the remaining control
characters below 0x20 get a `u00XX` escape, everything else is emitted
verbatim. -/
def escChar (c : Char) : List Char :=
  if c = dquote then [bslash, dquote]
  else if c = bslash then [bslash, bslash]
  else if c = '\x08' then [bslash, 'b']
  else if c = '\x0c' then [bslash, 'f']
  else if c = '\n' then [bslash, 'n']
  else if c = '\r' then [bslash, 'r']
  else if c = '\t' then [bslash, 't']
  else if c.toNat < 32 then
    [bslash, 'u', '0', '0', hexDigitCh (c.toNat / 16), hexDigitCh (c.toNat % 16)]
  else [c]

def escString : List Char → List Char
  | [] => []
  | c :: r => escChar c ++ escString r

/-- Newline plus indentation emitted by `json.dumps` with `indent=2` at nesting
level `lvl`. -/
def nlIndent (lvl : Nat) : List Char := '\n' :: List.replicate (2 * lvl) ' '

/-- Serialization of an object key followed by the `indent` key separator
`": "`. -/
def serKey (k : List Char) : List Char := dquote :: escString k ++ [dquote, ':', ' ']

def nullChars : List Char := ['n', 'u', 'l', 'l']

def trueChars : List Char := ['t', 'r', 'u', 'e']

def falseChars : List Char := ['f', 'a', 'l', 's', 'e']

mutual

/-- Model of `json.dumps(v, ensure_ascii=False, indent=2)` at nesting level
`lvl` (the export path of `display_key_points` in `main.py`). -/
def serV (lvl : Nat) : JVal → List Char
  | .null => nullChars
  | .bool true => trueChars
  | .bool false => falseChars
  | .num n => intChars n
  | .str s => dquote :: escString s ++ [dquote]
  | .arr .nil => [lbrack, rbrack]
  | .arr (.cons h t) =>
      lbrack :: (nlIndent (lvl + 1) ++ serV (lvl + 1) h ++ serArrTail (lvl + 1) t
        ++ nlIndent lvl ++ [rbrack])
  | .obj .nil => [lbrace, rbrace]
  | .obj (.cons k v t) =>
      lbrace :: (nlIndent (lvl + 1) ++ serKey k ++ serV (lvl + 1) v
        ++ serObjTail (lvl + 1) t ++ nlIndent lvl ++ [rbrace])

def serArrTail (lvl : Nat) : JArr → List Char
  | .nil => []
  | .cons h t => ',' :: (nlIndent lvl ++ serV lvl h ++ serArrTail lvl t)

def serObjTail (lvl : Nat) : JObj → List Char
  | .nil => []
  | .cons k v t => ',' :: (nlIndent lvl ++ serKey k ++ serV lvl v ++ serObjTail lvl t)

end

def dumps (j : JVal) : List Char := serV 0 j

def hexVal (c : Char) : Option Nat :=
  if 48 ≤ c.toNat && c.toNat ≤ 57 then some (c.toNat - 48)
  else if 97 ≤ c.toNat && c.toNat ≤ 102 then some (c.toNat - 87)
  else if 65 ≤ c.toNat && c.toNat ≤ 70 then some (c.toNat - 55)
  else none

/-- Decoding of the single-character escapes of `json.loads` (the `BACKSLASH`
table: quote, backslash, slash and the named control characters). -/
def escDecode (e : Char) : Option Char :=
  if e = dquote then some dquote
  else if e = bslash then some bslash
  else if e = '/' then some '/'
  else if e = 'b' then some '\x08'
  else if e = 'f' then some '\x0c'
  else if e = 'n' then some '\n'
  else if e = 'r' then some '\r'
  else if e = 't' then some '\t'
  else none

/-- One fuel-indexed layer of the JSON string-body reader: everything after
the opening quote up to and including the closing quote, decoding escapes
(strict mode: raw control characters are rejected, as in `json.loads`).  The
fuel only bounds recursion depth; one unit is spent per decoded character. -/
def psbStep (recur : List Char → Option (List Char × List Char)) :
    List Char → Option (List Char × List Char) := fun s =>
  match s with
  | [] => none
  | c :: r =>
    if c = dquote then some ([], r)
    else if c = bslash then
      match r with
      | [] => none
      | e :: r2 =>
        match escDecode e with
        | some d => (fun p => (d :: p.1, p.2)) <$> recur r2
        | none =>
          if e = 'u' then
            match r2 with
            | a :: b :: c2 :: d :: r3 =>
              match hexVal a, hexVal b, hexVal c2, hexVal d with
              | some va, some vb, some vc, some vd =>
                (fun p => (Char.ofNat (va * 4096 + vb * 256 + vc * 16 + vd) :: p.1, p.2)) <$>
                  recur r3
              | _, _, _, _ => none
            | _ => none
          else none
    else if c.toNat < 32 then none
    else (fun p => (c :: p.1, p.2)) <$> recur r

def parseStringBodyF : Nat → List Char → Option (List Char × List Char)
  | 0, _ => none
  | fuel + 1, s => psbStep (parseStringBodyF fuel) s

def parseStringBody (s : List Char) : Option (List Char × List Char) :=
  parseStringBodyF (s.length + 1) s

def isDigitCh (c : Char) : Bool := 48 ≤ c.toNat && c.toNat ≤ 57

def digitsVal (acc : Nat) : List Char → Nat
  | [] => acc
  | c :: r => digitsVal (acc * 10 + (c.toNat - 48)) r

/-- Parse an integral JSON number (optional minus sign followed by decimal
digits). -/
def parseNumber : List Char → Option (Int × List Char)
  | [] => none
  | c :: r =>
    if c = minusCh then
      if (r.takeWhile isDigitCh).isEmpty then none
      else some (- ((digitsVal 0 (r.takeWhile isDigitCh) : Nat) : Int), r.dropWhile isDigitCh)
    else
      if ((c :: r).takeWhile isDigitCh).isEmpty then none
      else some (((digitsVal 0 ((c :: r).takeWhile isDigitCh) : Nat) : Int),
        (c :: r).dropWhile isDigitCh)

def skipWs (s : List Char) : List Char := s.dropWhile isJWs

abbrev PRes (α : Type) := Option (α × List Char)

/-- One fuel-indexed step of the recursive-descent JSON reader modelling
`json.loads`: a value reader, an array-elements reader (after the first
element position of a non-empty array) and an object-members reader.  The
fuel only bounds the nesting of recursive calls; every claim is proved for a
sufficiently large fuel. -/
def parseStep : Nat →
    ((List Char → PRes JVal) × (List Char → PRes JArr) × (List Char → PRes JObj))
  | 0 => (fun _ => none, fun _ => none, fun _ => none)
  | fuel + 1 =>
    let pv : List Char → PRes JVal := (parseStep fuel).1
    let pe : List Char → PRes JArr := (parseStep fuel).2.1
    let pm : List Char → PRes JObj := (parseStep fuel).2.2
    ( fun s =>
        match skipWs s with
        | [] => none
        | c :: r =>
          if c = dquote then
            match parseStringBody r with
            | some p => some (JVal.str p.1, p.2)
            | none => none
          else if c = lbrack then
            match skipWs r with
            | c2 :: r2 =>
              if c2 = rbrack then some (JVal.arr JArr.nil, r2)
              else
                match pe (c2 :: r2) with
                | some p => some (JVal.arr p.1, p.2)
                | none => none
            | [] => none
          else if c = lbrace then
            match skipWs r with
            | c2 :: r2 =>
              if c2 = rbrace then some (JVal.obj JObj.nil, r2)
              else
                match pm (c2 :: r2) with
                | some p => some (JVal.obj p.1, p.2)
                | none => none
            | [] => none
          else if List.isPrefixOf ['n', 'u', 'l', 'l'] (c :: r) then
            some (JVal.null, (c :: r).drop 4)
          else if List.isPrefixOf ['t', 'r', 'u', 'e'] (c :: r) then
            some (JVal.bool true, (c :: r).drop 4)
          else if List.isPrefixOf ['f', 'a', 'l', 's', 'e'] (c :: r) then
            some (JVal.bool false, (c :: r).drop 5)
          else
            match parseNumber (c :: r) with
            | some p => some (JVal.num p.1, p.2)
            | none => none
      , fun s =>
          match pv s with
          | none => none
          | some (v, r) =>
            match skipWs r with
            | c :: r2 =>
              if c = ',' then
                match pe r2 with
                | some (tl, r3) => some (JArr.cons v tl, r3)
                | none => none
              else if c = rbrack then some (JArr.cons v JArr.nil, r2)
              else none
            | [] => none
      , fun s =>
          match skipWs s with
          | c :: r =>
            if c = dquote then
              match parseStringBody r with
              | none => none
              | some (k, r1) =>
                match skipWs r1 with
                | c2 :: r2 =>
                  if c2 = ':' then
                    match pv r2 with
                    | none => none
                    | some (v, r3) =>
                      match skipWs r3 with
                      | c3 :: r4 =>
                        if c3 = ',' then
                          match pm r4 with
                          | some (tl, r5) => some (JObj.cons k v tl, r5)
                          | none => none
                        else if c3 = rbrace then some (JObj.cons k v JObj.nil, r4)
                        else none
                      | [] => none
                  else none
                | [] => none
            else none
          | [] => none )

def parseVal (fuel : Nat) (s : List Char) : PRes JVal := (parseStep fuel).1 s

def parseElems (fuel : Nat) (s : List Char) : PRes JArr := (parseStep fuel).2.1 s

def parseMembers (fuel : Nat) (s : List Char) : PRes JObj := (parseStep fuel).2.2 s

/-- Model of `json.loads`: parse one value, then require only whitespace up to
the end of the input. -/
def loads (s : List Char) : Option JVal :=
  match parseVal (s.length + 1) s with
  | some (j, rest) => if (skipWs rest).isEmpty then some j else none
  | none => none

def ticks : List Char := [btick, btick, btick]

def fenceTag : List Char := ticks ++ ['j', 's', 'o', 'n']

/-- Characters of `s` strictly before the first occurrence of `pat`, or `none`
when `pat` does not occur. -/
def beforeSub (pat : List Char) : List Char → Option (List Char)
  | [] => if pat.isPrefixOf [] then some [] else none
  | c :: r =>
    if pat.isPrefixOf (c :: r) then some []
    else
      match beforeSub pat r with
      | some t => some (c :: t)
      | none => none

def trimPyWs (s : List Char) : List Char :=
  ((s.dropWhile isPyWs).reverse.dropWhile isPyWs).reverse

/-- Model of `re.search` with the fence pattern of `extract_key_points`
(three backticks, `json`, whitespace-trimmed minimal body, three backticks):
the leftmost opening tag that is followed by a closing triple backtick wins,
and the captured group is the in-between text trimmed of whitespace. -/
def findFencedJson : List Char → Option (List Char)
  | [] => none
  | c :: r =>
    if fenceTag.isPrefixOf (c :: r) then
      match beforeSub ticks ((c :: r).drop 7) with
      | some inner => some (trimPyWs inner)
      | none => findFencedJson r
    else findFencedJson r

/-- Candidate string of the JSON recovery step: fenced-block contents when a
tagged fence is present (whole reply otherwise), then everything before the
first opening brace and after the last closing brace removed. -/
def recoverCandidate (content : List Char) : List Char :=
  let body :=
    match findFencedJson content with
    | some inner => inner
    | none => content
  ((body.dropWhile (fun c => c != lbrace)).reverse.dropWhile (fun c => c != rbrace)).reverse

def recoverJson (content : List Char) : Option JVal := loads (recoverCandidate content)

structure ChatMessage where
  role : List Char
  content : List Char

inductive ApiError where
  | transport (status : Nat) (body : List Char)
  | network (msg : List Char)
  | decodeFailure
  | upstreamFormat

/-- Rendering of `str(e)` for the exceptions the pipeline logs and converts;
the exact text is immaterial to every claim. -/
def errMessage : ApiError → List Char
  | .transport status body => natChars status ++ (' ' :: body)
  | .network msg => msg
  | .decodeFailure => "JSONDecodeError".toList
  | .upstreamFormat => "KeyError".toList

def truncMarker : List Char := "...[内容过长，已截断]".toList

/-- Truncation step applied to the paper text inside `analyze_paper`,
`answer_question` and `extract_key_points` before the model call. -/
def truncateText (text : List Char) : List Char :=
  if text.length > 15000 then text.take 15000 ++ truncMarker else text

def summaryKey : List Char := "summary".toList

def summaryPrompt : List Char :=
  "请对以下论文内容进行摘要总结，包括研究目的、方法、主要发现和结论：".toList

def prompts : List (List Char × List Char) :=
  [ (summaryKey, summaryPrompt)
  , ("methodology".toList, "请详细分析以下论文的研究方法，包括实验设计、数据收集和分析方法：".toList)
  , ("results".toList, "请详细分析以下论文的研究结果，包括主要发现和数据分析：".toList)
  , ("conclusion".toList, "请总结以下论文的结论和未来研究方向：".toList) ]

/-- Model of `prompts.get(analysis_type, prompts["summary"])`. -/
def promptFor (analysisType : List Char) : List Char :=
  (prompts.lookup analysisType).getD summaryPrompt

def nl2 : List Char := ['\n', '\n']

def analyzeSystemPrompt : List Char :=
  "你是一个专业的学术论文分析助手，擅长分析和解释学术论文的内容。请用中文回答。".toList

def answerSystemPrompt : List Char :=
  ("你是一个专业的学术论文分析助手，擅长回答关于学术论文的问题。" ++
   "请基于提供的论文内容回答问题，如果论文中没有相关信息，请明确说明。请用中文回答。").toList

def kpSystemPrompt : List Char :=
  "你是一个专业的学术论文分析助手，擅长从论文中提取结构化信息。请用中文回答，并确保返回有效的JSON格式。".toList

def kpPrompt : List Char :=
  ("\n            请从以下论文中提取关键信息，并以JSON格式返回。JSON应包含以下字段：" ++
   "\n            - title: 论文标题" ++
   "\n            - authors: 作者列表（数组）" ++
   "\n            - keywords: 关键词列表（数组）" ++
   "\n            - research_purpose: 研究目的" ++
   "\n            - methodology: 包含approach（方法论）、data_collection（数据收集）和analysis_methods（分析方法，数组）的对象" ++
   "\n            - main_findings: 主要发现（数组）" ++
   "\n            - conclusions: 结论（数组）" ++
   "\n            - future_work: 未来工作（数组）" ++
   "\n            " ++
   "\n            请确保返回的是有效的JSON格式，不要包含任何其他文本。" ++
   "\n            ").toList

def analyzeMessages (text analysisType : List Char) : List ChatMessage :=
  [ { role := "system".toList, content := analyzeSystemPrompt }
  , { role := "user".toList
    , content := promptFor analysisType ++ nl2 ++ truncateText text } ]

def answerMessages (text question : List Char) : List ChatMessage :=
  [ { role := "system".toList, content := answerSystemPrompt }
  , { role := "user".toList
    , content := "论文内容：".toList ++ nl2 ++ truncateText text ++ nl2 ++ "问题：".toList ++ question } ]

def kpMessages (text : List Char) : List ChatMessage :=
  [ { role := "system".toList, content := kpSystemPrompt }
  , { role := "user".toList, content := kpPrompt ++ nl2 ++ truncateText text } ]

def jlookup (k : List Char) : JObj → Option JVal
  | .nil => none
  | .cons k2 v t => if k2 = k then some v else jlookup k t

/-- Navigation `response["choices"][0]["message"]["content"]`; any missing key,
empty array or wrongly-shaped node raises the structural error the spec calls
`UpstreamFormatError`. -/
def getContent (resp : JVal) : Except ApiError JVal :=
  match resp with
  | .obj fields =>
    match jlookup "choices".toList fields with
    | some (.arr (.cons first _)) =>
      match first with
      | .obj m1 =>
        match jlookup "message".toList m1 with
        | some (.obj m2) =>
          match jlookup "content".toList m2 with
          | some v => .ok v
          | none => .error .upstreamFormat
        | _ => .error .upstreamFormat
      | _ => .error .upstreamFormat
    | _ => .error .upstreamFormat
  | _ => .error .upstreamFormat

/-- Operation `analyze_paper`, parameterised by the outcome of the single
`_call_api` invocation on the messages it builds; an `Except.error` result
models an exception propagating to the caller (the source's handler logs and
re-raises). -/
def analyze_paper (callModel : List ChatMessage → Except ApiError JVal)
    (text analysisType : List Char) : Except ApiError JVal :=
  match callModel (analyzeMessages text analysisType) with
  | .error e => .error e
  | .ok resp => getContent resp

def answer_question (callModel : List ChatMessage → Except ApiError JVal)
    (text question : List Char) : Except ApiError JVal :=
  match callModel (answerMessages text question) with
  | .error e => .error e
  | .ok resp => getContent resp

/-- Return value of `extract_key_points`: either the parsed key points or the
error-flagged dictionary (`error`/`message`, plus `raw_response` exactly when
the inner JSON-recovery handler produced it). -/
inductive KPResult where
  | ok (points : JVal)
  | err (message : List Char) (raw : Option (List Char))

def jsonErrMsg : List Char := "API返回的内容不是有效的JSON格式".toList

/-- Processing of the model reply inside `extract_key_points`: JSON recovery,
with parse failure converted to the error-flagged dictionary carrying the raw
reply. -/
def processReply (content : List Char) : KPResult :=
  match recoverJson content with
  | some points => .ok points
  | none => .err jsonErrMsg (some content)

/-- Operation `extract_key_points`.  The outer `except Exception` of the source
converts every exception — transport errors and response-shape errors
included — into an error-flagged return value, so the function always returns
`Except.ok`. -/
def extract_key_points (callModel : List ChatMessage → Except ApiError JVal)
    (text : List Char) : Except ApiError KPResult :=
  .ok (match callModel (kpMessages text) with
    | .error e => KPResult.err (errMessage e) none
    | .ok resp =>
      match getContent resp with
      | .error e => KPResult.err (errMessage e) none
      | .ok (.str content) => processReply content
      | .ok _ => KPResult.err "TypeError".toList none)

/-- Outcome of the single `requests.post` inside `_call_api`: either a
response (with its status, body text and, when the body is JSON, its parsed
value) or a network-level failure with no response attached. -/
inductive TransportOutcome where
  | response (status : Nat) (body : List Char) (parsed : Option JVal)
  | failure (msg : List Char)

structure CallOutcome where
  result : Except ApiError JVal
  loggedDiagnostics : List (Nat × List Char)
  httpPosts : Nat

/-- Truthiness of a `requests.Response` (`Response.__bool__` returns
`Response.ok`, i.e. status below 400). -/
def response_ok (status : Nat) : Bool := status < 400

/-- Statuses for which `Response.raise_for_status` raises `HTTPError`
(4xx client errors and 5xx server errors). -/
def raises_for_status (status : Nat) : Bool := 400 ≤ status && status < 600

/-- Model of `_call_api` around one completed POST: `raise_for_status`, the
`except` block that logs the status code and body only when
`hasattr(e, 'response') and e.response` holds, the bare `raise`, and
`response.json()` on the non-raising path.  `loggedDiagnostics` records the
(status, body) pairs the handler logged before re-raising. -/
def call_api (outcome : TransportOutcome) : CallOutcome :=
  match outcome with
  | .failure msg =>
    { result := .error (.network msg), loggedDiagnostics := [], httpPosts := 1 }
  | .response status body parsed =>
    if raises_for_status status then
      { result := .error (.transport status body)
      , loggedDiagnostics := if response_ok status then [(status, body)] else []
      , httpPosts := 1 }
    else
      match parsed with
      | some j => { result := .ok j, loggedDiagnostics := [], httpPosts := 1 }
      | none =>
        { result := .error .decodeFailure, loggedDiagnostics := [], httpPosts := 1 }

structure DeepSeekClient where
  apiKey : List Char
  apiUrl : List Char
  modelId : List Char

def defaultApiUrl : List Char := "https://api.deepseek.com/v1/chat/completions".toList

def authErrMsg : List Char := "未设置DEEPSEEK_API_KEY环境变量".toList

structure InitOutcome where
  result : Except (List Char) DeepSeekClient
  httpPosts : Nat

/-- Model of `DeepSeekAPI.__init__`: reads the key and URL from the
environment, fails when the key is unset or empty (Python truthiness of
`os.getenv`), and performs no HTTP request (`httpPosts = 0` on every path). -/
def deepSeekInit (envKey envUrl : Option (List Char)) : InitOutcome :=
  let key := envKey.getD []
  if key.isEmpty then { result := .error authErrMsg, httpPosts := 0 }
  else
    { result := .ok
        { apiKey := key
        , apiUrl := envUrl.getD defaultApiUrl
        , modelId := "deepseek-chat".toList }
    , httpPosts := 0 }

def appPdf : List Char := "application/pdf".toList

/-- Model of `PDFProcessor.validate_pdf`, parameterised by which validator is
available (`has_magic`), the MIME type content sniffing would report, the
MIME type `mimetypes.guess_type` derives from the file name, and whether
`fitz.open` succeeds on the file. -/
def validate_pdf (hasMagic : Bool) (sniffedMime : List Char)
    (extGuess : Option (List Char)) (openOk : Bool) : Except (List Char) Bool :=
  if hasMagic then
    if sniffedMime ≠ appPdf then .error ("无效的文件类型: ".toList ++ sniffedMime)
    else .ok true
  else
    if extGuess ≠ some appPdf then
      if openOk then .ok true else .error "无效的PDF文件".toList
    else .ok true

/-- One step of the page loop of `extract_text`: `page.get_text()` returning
text, `page.get_text()` raising (caught and logged, the page contributes
nothing), or the page iterator itself raising (uncaught). -/
inductive PageStep where
  | pageOk (text : List Char)
  | pageFail
  | iterFail (msg : List Char)

def collect_pages : List PageStep → Except (List Char) (List (List Char))
  | [] => .ok []
  | .pageOk t :: r =>
    match collect_pages r with
    | .ok ts => .ok (t :: ts)
    | .error m => .error m
  | .pageFail :: r => collect_pages r
  | .iterFail m :: _ => .error m

structure ExtractOutcome where
  result : Except (List Char) (List Char)
  opened : Bool
  closed : Bool

/-- Body of `extract_text` before the `finally` clause runs: validation, then
`fitz.open`, then the page loop and the newline join.  `opened` records
whether `doc` was bound; `closed` is still false everywhere here. -/
def extract_text_body (validateRes : Except (List Char) Unit)
    (openRes : Except (List Char) (List PageStep)) : ExtractOutcome :=
  match validateRes with
  | .error m => { result := .error m, opened := false, closed := false }
  | .ok _ =>
    match openRes with
    | .error m => { result := .error m, opened := false, closed := false }
    | .ok steps =>
      match collect_pages steps with
      | .error m => { result := .error m, opened := true, closed := false }
      | .ok ts =>
        { result := .ok (List.intercalate ['\n'] ts), opened := true, closed := false }

/-- The `finally` clause: `if 'doc' in locals(): doc.close()`. -/
def finallyClose (st : ExtractOutcome) : ExtractOutcome :=
  if st.opened then { st with closed := true } else st

/-- Model of `PDFProcessor.extract_text`, parameterised by the validation
outcome and the open outcome (the latter carrying the page-loop steps). -/
def extract_text (validateRes : Except (List Char) Unit)
    (openRes : Except (List Char) (List PageStep)) : ExtractOutcome :=
  finallyClose (extract_text_body validateRes openRes)

def exampleReply : List Char :=
  "Here you go:\n```json\n\x7b\"title\":\"T\"\x7d\n```\nThanks".toList

def exampleParsed : JVal := JVal.obj (JObj.cons "title".toList (JVal.str "T".toList) JObj.nil)

mutual

/-- Fuel sufficient for `parseVal` to parse the serialization of `j`. -/
def fuelV : JVal → Nat
  | .arr (.cons h t) => 1 + fuelE (JArr.cons h t)
  | .obj (.cons k v t) => 1 + fuelM (JObj.cons k v t)
  | _ => 1

def fuelE : JArr → Nat
  | .nil => 0
  | .cons h t => 1 + fuelV h + fuelE t

def fuelM : JObj → Nat
  | .nil => 0
  | .cons _ v t => 1 + fuelV v + fuelM t

end

def allJWs (w : List Char) : Prop := ∀ c ∈ w, isJWs c = true

/-- Tail after a serialized value never starting with a digit, so that a
serialized number is not extended by what follows it. -/
def headSafe : List Char → Prop
  | [] => True
  | c :: _ => isDigitCh c = false

def analysisKeys : List (List Char) :=
  ["summary".toList, "methodology".toList, "results".toList, "conclusion".toList]

/-- C1: for every input text of length at most 15,000 characters the
truncation step (applied inside `analyze_paper`, `answer_question` and
`extract_key_points` before the model call) returns the text unchanged; for
every longer text it returns exactly the first 15,000 characters followed by
the fixed truncation marker, so the result length is always at most 15,000
plus the marker length. -/
theorem truncation_spec (text : List Char) :
    (text.length ≤ 15000 → truncateText text = text) ∧
    (text.length > 15000 → truncateText text = text.take 15000 ++ truncMarker) ∧
    (truncateText text).length ≤ 15000 + truncMarker.length := by
  refine ⟨fun h => ?_, fun h => ?_, ?_⟩
  · rw [truncateText, if_neg (by omega)]
  · rw [truncateText, if_pos h]
  · by_cases h : text.length > 15000
    · rw [truncateText, if_pos h]
      simp [List.length_append, List.length_take]
    · rw [truncateText, if_neg h]
      omega

/-- Witness for C1 at a one-character text and a 15,001-character text. -/
theorem truncation_spec_witness :
    truncateText ['a'] = ['a'] ∧
    truncateText (List.replicate 15001 'a') = List.replicate 15000 'a' ++ truncMarker := by
  constructor
  · exact (truncation_spec ['a']).1 (by norm_num)
  · have h := (truncation_spec (List.replicate 15001 'a')).2.1 (by
      rw [List.length_replicate]; norm_num)
    rw [h, List.take_replicate]
    norm_num

/-- C7: constructing the pipeline client with no API key configured (unset or
empty, Python truthiness) fails immediately with the authentication error,
and construction performs no HTTP request on any path — the key check happens
at client construction, not per call. -/
theorem auth_check_at_construction (envKey envUrl : Option (List Char))
    (h : envKey = none ∨ envKey = some []) :
    deepSeekInit envKey envUrl = { result := .error authErrMsg, httpPosts := 0 } ∧
    (∀ k u, (deepSeekInit k u).httpPosts = 0) := by
  constructor
  · rcases h with h | h <;> subst h <;> rfl
  · intro k u
    rw [deepSeekInit]
    rcases k with _ | key
    · rfl
    · by_cases hk : (key.isEmpty : Bool) <;> simp [hk]

/-- Witness for C7 with an unset key. -/
theorem auth_check_at_construction_witness :
    deepSeekInit none none = { result := .error authErrMsg, httpPosts := 0 } :=
  (auth_check_at_construction none none (Or.inl rfl)).1

/-- C3 counterexample: a transport error occurring during
`extract_key_points` does not propagate to the caller — the outer
`except Exception` converts it into an error-flagged return value
(`Except.ok` of an error dictionary, not `Except.error`). -/
theorem extract_kp_absorbs_transport :
    extract_key_points (fun _ => .error (.transport 500 "boom".toList)) [] =
      .ok (.err (errMessage (.transport 500 "boom".toList)) none) := rfl

/-- C3 amended: `analyze_paper` and `answer_question` re-raise every model-call
error and re-raise response-shape failures; `extract_key_points` alone absorbs
all of them, returning an error-flagged value (without `raw_response`) instead
of raising, and in fact always returns normally. -/
theorem error_propagation_policy :
    (∀ e text t, analyze_paper (fun _ => .error e) text t = .error e) ∧
    (∀ e text q, answer_question (fun _ => .error e) text q = .error e) ∧
    (∀ resp text t, analyze_paper (fun _ => .ok resp) text t = getContent resp) ∧
    (∀ resp text q, answer_question (fun _ => .ok resp) text q = getContent resp) ∧
    (∀ e text, extract_key_points (fun _ => .error e) text =
      .ok (.err (errMessage e) none)) ∧
    (∀ cm text, ∃ r, extract_key_points cm text = .ok r) :=
  ⟨fun _e _text _t => rfl, fun _e _text _q => rfl, fun _resp _text _t => rfl,
   fun _resp _text _q => rfl, fun _e _text => rfl, fun _cm _text => ⟨_, rfl⟩⟩

/-- C6: evaluation of `_call_api` at a 500 response with body `err`: the
`HTTPError` propagates carrying the status and body, the POST count is one,
but the diagnostic log is empty — the handler's condition
`hasattr(e, 'response') and e.response` is falsy because `Response.__bool__`
is `Response.ok`, false for every 4xx/5xx status, so the intended
status-and-body logging never runs; and a 304 (non-2xx) response raises no
error at all, returning the parsed body instead. -/
theorem call_api_diagnostics_never_logged :
    call_api (.response 500 "err".toList (some .null)) =
      { result := .error (.transport 500 "err".toList)
      , loggedDiagnostics := [], httpPosts := 1 } ∧
    call_api (.response 304 [] (some (.str "x".toList))) =
      { result := .ok (.str "x".toList), loggedDiagnostics := [], httpPosts := 1 } ∧
    (∀ oc, (call_api oc).httpPosts = 1) := by
  refine ⟨rfl, rfl, fun oc => ?_⟩
  rcases oc with ⟨status, body, parsed⟩ | msg
  · rw [call_api.eq_def]
    by_cases h : (raises_for_status status : Bool)
    · simp [h]
    · rcases parsed with _ | j <;> simp [h]
  · rfl

/-- C9: on every exit path of `extract_text` — success, per-document
extraction error, or validation error — the document handle, if it was
opened, is closed before the call returns or the error propagates. -/
theorem handle_released_on_every_exit (validateRes : Except (List Char) Unit)
    (openRes : Except (List Char) (List PageStep))
    (h : (extract_text validateRes openRes).opened = true) :
    (extract_text validateRes openRes).closed = true := by
  by_cases hst : (extract_text_body validateRes openRes).opened <;>
    simp [extract_text, finallyClose, hst] at h ⊢

/-- Witness for C9 on the successful empty-document path. -/
theorem handle_released_on_every_exit_witness :
    (extract_text (.ok ()) (.ok [])).closed = true :=
  handle_released_on_every_exit (.ok ()) (.ok []) rfl

theorem collect_pages_okmap (pre : List (List Char)) (r : List PageStep) :
    collect_pages (pre.map PageStep.pageOk ++ r) =
      (collect_pages r).map (fun ts => pre ++ ts) := by
  induction pre with
  | nil => simp [Except.map]; cases collect_pages r <;> simp [Except.map]
  | cons hd tl ih =>
    simp only [List.map_cons, List.cons_append, collect_pages, List.append_eq]
    rw [ih]
    cases collect_pages r <;> simp [Except.map]

/-- C4: for a multi-page document in which the text extraction of exactly one
page throws, `extract_text` still returns the newline-joined concatenation of
the remaining pages' texts in the original page order (and releases the
handle), raising nothing on account of that page's failure. -/
theorem single_page_failure_tolerated (pre suf : List (List Char)) :
    extract_text (.ok ())
        (.ok (pre.map PageStep.pageOk ++ PageStep.pageFail :: suf.map PageStep.pageOk)) =
      { result := .ok (List.intercalate ['\n'] (pre ++ suf))
      , opened := true, closed := true } := by
  have hsuf : collect_pages (suf.map PageStep.pageOk) = .ok suf := by
    have := collect_pages_okmap suf []
    simpa [collect_pages, Except.map] using this
  have hall : collect_pages
      (pre.map PageStep.pageOk ++ PageStep.pageFail :: suf.map PageStep.pageOk) =
      .ok (pre ++ suf) := by
    rw [collect_pages_okmap]
    simp [collect_pages, hsuf, Except.map]
  simp [extract_text, extract_text_body, hall, finallyClose]

/-- C5 counterexample: under the extension-based fallback check, a non-PDF
file whose name carries a `.pdf` extension (so `mimetypes.guess_type` reports
`application/pdf` whatever the contents, here sniffable as `text/plain`, and
`fitz.open` would fail) passes validation instead of failing with
`InvalidDocument`. -/
theorem fallback_accepts_renamed_pdf :
    validate_pdf false "text/plain".toList (some appPdf) false = .ok true := rfl

/-- C5 amended: under the content-sniffing primary check every non-PDF file
fails with `InvalidDocument` regardless of its name, and a validation error
makes `extract_text` fail; under the extension-based fallback a file whose
name carries a `.pdf` extension passes validation unconditionally, and a
non-PDF file fails only when its extension does not suggest PDF and opening
the document also fails. -/
theorem validate_pdf_checks :
    (∀ sniffed ext o, sniffed ≠ appPdf →
      validate_pdf true sniffed ext o = .error ("无效的文件类型: ".toList ++ sniffed)) ∧
    (∀ sniffed o, validate_pdf false sniffed (some appPdf) o = .ok true) ∧
    (∀ sniffed ext, ext ≠ some appPdf →
      validate_pdf false sniffed ext false = .error "无效的PDF文件".toList) ∧
    (∀ m o, (extract_text (.error m) o).result = .error m) := by
  refine ⟨fun sniffed ext o h => ?_, fun sniffed o => ?_, fun sniffed ext h => ?_,
    fun m o => ?_⟩
  · rw [validate_pdf, if_pos rfl, if_pos h]
  · rw [validate_pdf, if_neg (by trivial), if_neg (by simp)]
  · rw [validate_pdf, if_neg (by trivial), if_pos h, if_neg (by simp)]
  · simp [extract_text, extract_text_body, finallyClose]

/-- Witness for C5's amended statement at concrete non-PDF inputs. -/
theorem validate_pdf_checks_witness :
    validate_pdf true "text/plain".toList (some appPdf) false =
      .error ("无效的文件类型: ".toList ++ "text/plain".toList) ∧
    validate_pdf false "text/plain".toList none false = .error "无效的PDF文件".toList :=
  ⟨validate_pdf_checks.1 _ _ _ (by decide), validate_pdf_checks.2.2.1 _ _ (by decide)⟩

/-- C10: for every `analysis_type` outside
summary/methodology/results/conclusion, `analyze_paper` does not fail — it
silently falls back to the summary prompt, behaving identically to
`analyze_paper` called with `summary`, whatever the model call does. -/
theorem unknown_intent_falls_back_to_summary
    (callModel : List ChatMessage → Except ApiError JVal)
    (text analysisType : List Char) (h : analysisType ∉ analysisKeys) :
    analyze_paper callModel text analysisType = analyze_paper callModel text summaryKey := by
  have hp : promptFor analysisType = summaryPrompt := by
    simp only [analysisKeys, List.mem_cons] at h
    push_neg at h
    obtain ⟨h1, h2, h3, h4, -⟩ := h
    have e1 : (analysisType == summaryKey) = false := beq_eq_false_iff_ne.mpr h1
    have e2 : (analysisType == "methodology".toList) = false := beq_eq_false_iff_ne.mpr h2
    have e3 : (analysisType == "results".toList) = false := beq_eq_false_iff_ne.mpr h3
    have e4 : (analysisType == "conclusion".toList) = false := beq_eq_false_iff_ne.mpr h4
    simp only [promptFor, prompts, List.lookup, e1, e2, e3, e4]
    rfl
  have hs : promptFor summaryKey = summaryPrompt := by
    simp [promptFor, prompts, List.lookup]
  rw [analyze_paper, analyze_paper, analyzeMessages, analyzeMessages, hp, hs]

/-- Witness for C10 at the unknown intent `foo`. -/
theorem unknown_intent_falls_back_to_summary_witness :
    analyze_paper (fun _ => .error (.network [])) [] "foo".toList =
      analyze_paper (fun _ => .error (.network [])) [] summaryKey :=
  unknown_intent_falls_back_to_summary _ _ _ (by decide)

theorem toNat_ofNat_of_lt {n : Nat} (h : n < 55296) : (Char.ofNat n).toNat = n := by
  have hv : n.isValidChar := Or.inl h
  rw [Char.ofNat, dif_pos hv]
  simp [Char.ofNatAux, Char.toNat, UInt32.toNat]

theorem isJWs_not_digit {c : Char} (h : isJWs c = true) : isDigitCh c = false := by
  simp only [isJWs, Bool.or_eq_true, decide_eq_true_eq] at h
  rcases h with ((h | h) | h) | h <;> subst h <;> decide

theorem skipWs_append_ws (w s : List Char) (h : allJWs w) : skipWs (w ++ s) = skipWs s := by
  induction w with
  | nil => rfl
  | cons c r ih =>
    have hc : isJWs c = true := h c (List.mem_cons_self c r)
    have hr : allJWs r := fun x hx => h x (List.mem_cons_of_mem c hx)
    simp [skipWs, List.dropWhile_cons, hc] at ih ⊢
    exact ih hr

theorem skipWs_cons_of_not {c : Char} (s : List Char) (h : isJWs c = false) :
    skipWs (c :: s) = c :: s := by
  simp [skipWs, List.dropWhile_cons, h]

theorem allJWs_nlIndent (lvl : Nat) : allJWs (nlIndent lvl) := by
  intro c hc
  rcases List.mem_cons.mp hc with h | h
  · subst h; decide
  · rw [List.eq_of_mem_replicate h]; decide

theorem digitCh_toNat {n : Nat} (h : n < 10) : (digitCh n).toNat = 48 + n := by
  rw [digitCh, toNat_ofNat_of_lt]; omega

theorem isDigitCh_digitCh {n : Nat} (h : n < 10) : isDigitCh (digitCh n) = true := by
  simp only [isDigitCh, digitCh_toNat h, Bool.and_eq_true, decide_eq_true_eq]
  omega

theorem digitsVal_nil (acc : Nat) : digitsVal acc [] = acc := rfl

theorem digitsVal_cons (acc : Nat) (c : Char) (l : List Char) :
    digitsVal acc (c :: l) = digitsVal (acc * 10 + (c.toNat - 48)) l := rfl

theorem digitsVal_append (acc : Nat) (xs ys : List Char) :
    digitsVal acc (xs ++ ys) = digitsVal (digitsVal acc xs) ys := by
  induction xs generalizing acc with
  | nil => rfl
  | cons c r ih => rw [List.cons_append, digitsVal_cons, digitsVal_cons, ih]

theorem natCharsAux_spec (fuel : Nat) : ∀ n : Nat, n < fuel →
    natCharsAux fuel n ≠ [] ∧
    (∀ c ∈ natCharsAux fuel n, isDigitCh c = true) ∧
    ∀ acc, digitsVal acc (natCharsAux fuel n) =
      acc * 10 ^ (natCharsAux fuel n).length + n := by
  induction fuel with
  | zero => intro n h; omega
  | succ f ih =>
    intro n h
    by_cases h10 : n < 10
    · refine ⟨by simp [natCharsAux, h10], ?_, ?_⟩
      · intro c hc
        simp only [natCharsAux, if_pos h10, List.mem_singleton] at hc
        subst hc
        exact isDigitCh_digitCh h10
      · intro acc
        simp only [natCharsAux, if_pos h10, digitsVal_cons, digitsVal_nil,
          List.length_singleton, pow_one, digitCh_toNat h10]
        omega
    · have hdiv : n / 10 < f := by
        have h1 : n / 10 < n := Nat.div_lt_self (by omega) (by omega)
        omega
      obtain ⟨hne, hdig, hval⟩ := ih (n / 10) hdiv
      have hmod : n % 10 < 10 := Nat.mod_lt _ (by omega)
      refine ⟨by simp [natCharsAux, h10], ?_, ?_⟩
      · intro c hc
        simp only [natCharsAux, if_neg h10, List.mem_append, List.mem_singleton] at hc
        rcases hc with hc | hc
        · exact hdig c hc
        · subst hc; exact isDigitCh_digitCh hmod
      · intro acc
        simp only [natCharsAux, if_neg h10, digitsVal_append, hval, digitsVal_cons,
          digitsVal_nil, List.length_append, List.length_singleton, digitCh_toNat hmod,
          pow_succ]
        ring_nf
        omega

theorem natChars_spec (n : Nat) :
    natChars n ≠ [] ∧ (∀ c ∈ natChars n, isDigitCh c = true) ∧
    digitsVal 0 (natChars n) = n := by
  obtain ⟨h1, h2, h3⟩ := natCharsAux_spec (n + 1) n (Nat.lt_succ_self n)
  exact ⟨h1, h2, by simpa using h3 0⟩

theorem takeWhile_digits (ds rest : List Char) (hds : ∀ c ∈ ds, isDigitCh c = true)
    (hr : headSafe rest) :
    (ds ++ rest).takeWhile isDigitCh = ds ∧ (ds ++ rest).dropWhile isDigitCh = rest := by
  induction ds with
  | nil =>
    cases rest with
    | nil => simp
    | cons c r =>
      simp only [headSafe] at hr
      simp [List.takeWhile_cons, List.dropWhile_cons, hr]
  | cons c r ih =>
    have hc := hds c (List.mem_cons_self c r)
    have hrest := ih (fun x hx => hds x (List.mem_cons_of_mem c hx))
    simp [List.takeWhile_cons, List.dropWhile_cons, hc, hrest.1, hrest.2]

theorem parseNumber_intChars (n : Int) (rest : List Char) (hr : headSafe rest) :
    parseNumber (intChars n ++ rest) = some (n, rest) := by
  obtain ⟨hne, hdig, hval⟩ := natChars_spec n.natAbs
  obtain ⟨htake, hdrop⟩ := takeWhile_digits (natChars n.natAbs) rest hdig hr
  by_cases hneg : n < 0
  · rw [intChars, if_pos hneg]
    simp only [List.cons_append, parseNumber, if_pos rfl, if_true, htake, hdrop]
    rw [if_neg (by simp [hne])]
    rw [hval]
    have : -((n.natAbs : Nat) : Int) = n := by omega
    rw [this]
  · rw [intChars, if_neg hneg]
    obtain ⟨c, cs, hcons⟩ := List.exists_cons_of_ne_nil hne
    have hc : isDigitCh c = true := hdig c (by rw [hcons]; exact List.mem_cons_self c cs)
    have hcm : ¬(c = minusCh) := by
      intro he
      subst he
      exact absurd hc (by decide)
    rw [hcons] at htake hdrop ⊢
    rw [List.cons_append]
    simp only [parseNumber, if_neg hcm]
    rw [← List.cons_append, htake, hdrop]
    rw [if_neg (by simp)]
    rw [← hcons, hval]
    have hcast : ((n.natAbs : Nat) : Int) = n := by omega
    rw [hcast]

theorem hexVal_hexDigitCh : ∀ n < 16, hexVal (hexDigitCh n) = some n := by decide

theorem parseStringBodyF_esc (s : List Char) : ∀ (fuel : Nat) (rest : List Char),
    s.length < fuel →
    parseStringBodyF fuel (escString s ++ dquote :: rest) = some (s, rest) := by
  induction s with
  | nil =>
    intro fuel rest h
    obtain ⟨f, rfl⟩ : ∃ f, fuel = f + 1 := ⟨fuel - 1, by omega⟩
    simp only [escString, List.nil_append, parseStringBodyF, psbStep, if_true]
  | cons c t ih =>
    intro fuel rest h
    obtain ⟨f, rfl⟩ : ∃ f, fuel = f + 1 := ⟨fuel - 1, by omega⟩
    have hf : t.length < f := by
      simp only [List.length_cons] at h
      omega
    rw [show escString (c :: t) = escChar c ++ escString t from rfl, List.append_assoc]
    have hmap : ∀ d : Char,
        (fun p : List Char × List Char => (d :: p.1, p.2)) <$>
          parseStringBodyF f (escString t ++ dquote :: rest) = some (d :: t, rest) := by
      intro d
      rw [ih f rest hf]
      rfl
    by_cases h1 : c = dquote
    · subst h1
      rw [show escChar dquote = [bslash, dquote] from by rw [escChar, if_pos rfl]]
      show parseStringBodyF (f + 1) (bslash :: dquote :: (escString t ++ dquote :: rest)) = _
      simp only [parseStringBodyF, psbStep]
      rw [if_neg (by decide), if_true]
      rw [show escDecode dquote = some dquote from by rw [escDecode, if_pos rfl]]
      exact hmap dquote
    · by_cases h2 : c = bslash
      · subst h2
        rw [show escChar bslash = [bslash, bslash] from by
          rw [escChar, if_neg (by decide), if_pos rfl]]
        show parseStringBodyF (f + 1) (bslash :: bslash :: (escString t ++ dquote :: rest)) = _
        simp only [parseStringBodyF, psbStep]
        rw [if_neg (by decide), if_true]
        rw [show escDecode bslash = some bslash from by
          rw [escDecode, if_neg (by decide), if_pos rfl]]
        exact hmap bslash
      · by_cases h3 : c = '\x08'
        · subst h3
          rw [show escChar '\x08' = [bslash, 'b'] from by
            rw [escChar, if_neg (by decide), if_neg (by decide), if_pos rfl]]
          show parseStringBodyF (f + 1) (bslash :: 'b' :: (escString t ++ dquote :: rest)) = _
          simp only [parseStringBodyF, psbStep]
          rw [if_neg (by decide), if_true]
          rw [show escDecode 'b' = some '\x08' from by decide]
          exact hmap '\x08'
        · by_cases h4 : c = '\x0c'
          · subst h4
            rw [show escChar '\x0c' = [bslash, 'f'] from by
              rw [escChar, if_neg (by decide), if_neg (by decide), if_neg (by decide),
                if_pos rfl]]
            show parseStringBodyF (f + 1)
              (bslash :: 'f' :: (escString t ++ dquote :: rest)) = _
            simp only [parseStringBodyF, psbStep]
            rw [if_neg (by decide), if_true]
            rw [show escDecode 'f' = some '\x0c' from by decide]
            exact hmap '\x0c'
          · by_cases h5 : c = '\n'
            · subst h5
              rw [show escChar '\n' = [bslash, 'n'] from by
                rw [escChar, if_neg (by decide), if_neg (by decide), if_neg (by decide),
                  if_neg (by decide), if_pos rfl]]
              show parseStringBodyF (f + 1)
                (bslash :: 'n' :: (escString t ++ dquote :: rest)) = _
              simp only [parseStringBodyF, psbStep]
              rw [if_neg (by decide), if_true]
              rw [show escDecode 'n' = some '\n' from by decide]
              exact hmap '\n'
            · by_cases h6 : c = '\r'
              · subst h6
                rw [show escChar '\r' = [bslash, 'r'] from by
                  rw [escChar, if_neg (by decide), if_neg (by decide), if_neg (by decide),
                    if_neg (by decide), if_neg (by decide), if_pos rfl]]
                show parseStringBodyF (f + 1)
                  (bslash :: 'r' :: (escString t ++ dquote :: rest)) = _
                simp only [parseStringBodyF, psbStep]
                rw [if_neg (by decide), if_true]
                rw [show escDecode 'r' = some '\r' from by decide]
                exact hmap '\r'
              · by_cases h7 : c = '\t'
                · subst h7
                  rw [show escChar '\t' = [bslash, 't'] from by
                    rw [escChar, if_neg (by decide), if_neg (by decide), if_neg (by decide),
                      if_neg (by decide), if_neg (by decide), if_neg (by decide), if_pos rfl]]
                  show parseStringBodyF (f + 1)
                    (bslash :: 't' :: (escString t ++ dquote :: rest)) = _
                  simp only [parseStringBodyF, psbStep]
                  rw [if_neg (by decide), if_true]
                  rw [show escDecode 't' = some '\t' from by decide]
                  exact hmap '\t'
                · by_cases h8 : c.toNat < 32
                  · rw [show escChar c = [bslash, 'u', '0', '0', hexDigitCh (c.toNat / 16),
                        hexDigitCh (c.toNat % 16)] from by
                      rw [escChar, if_neg h1, if_neg h2, if_neg h3, if_neg h4, if_neg h5,
                        if_neg h6, if_neg h7, if_pos h8]]
                    show parseStringBodyF (f + 1) (bslash :: 'u' :: '0' :: '0' ::
                      hexDigitCh (c.toNat / 16) :: hexDigitCh (c.toNat % 16) ::
                      (escString t ++ dquote :: rest)) = _
                    simp only [parseStringBodyF, psbStep]
                    rw [if_neg (by decide), if_true]
                    rw [show escDecode 'u' = none from by decide]
                    rw [if_true]
                    rw [show hexVal '0' = some 0 from by decide]
                    rw [hexVal_hexDigitCh (c.toNat / 16) (by omega)]
                    rw [hexVal_hexDigitCh (c.toNat % 16) (by omega)]
                    simp only []
                    rw [show (0 : Nat) * 4096 + 0 * 256 + c.toNat / 16 * 16 + c.toNat % 16 =
                      c.toNat from by omega]
                    rw [Char.ofNat_toNat]
                    exact hmap c
                  · rw [show escChar c = [c] from by
                      rw [escChar, if_neg h1, if_neg h2, if_neg h3, if_neg h4, if_neg h5,
                        if_neg h6, if_neg h7, if_neg h8]]
                    show parseStringBodyF (f + 1)
                      (c :: (escString t ++ dquote :: rest)) = _
                    simp only [parseStringBodyF, psbStep]
                    rw [if_neg h1, if_neg h2, if_neg h8]
                    exact hmap c

theorem escChar_length_pos (c : Char) : 1 ≤ (escChar c).length := by
  rw [escChar]
  repeat' split
  all_goals simp

theorem escString_length_ge (s : List Char) : s.length ≤ (escString s).length := by
  induction s with
  | nil => simp [escString]
  | cons c t ih =>
    have := escChar_length_pos c
    simp only [escString, List.length_append, List.length_cons]
    omega

theorem parseStringBody_esc (s rest : List Char) :
    parseStringBody (escString s ++ dquote :: rest) = some (s, rest) := by
  rw [parseStringBody]
  apply parseStringBodyF_esc
  have := escString_length_ge s
  simp only [List.length_append, List.length_cons]
  omega

theorem isJWs_toNat {c : Char} (h : isJWs c = true) :
    c.toNat = 32 ∨ c.toNat = 9 ∨ c.toNat = 10 ∨ c.toNat = 13 := by
  simp only [isJWs, Bool.or_eq_true, decide_eq_true_eq] at h
  rcases h with ((h | h) | h) | h <;> subst h <;> simp

theorem ne_of_toNat_ne {c d : Char} (h : c.toNat ≠ d.toNat) : c ≠ d :=
  fun he => h (he ▸ rfl)

theorem not_isJWs_of_digit {c : Char} (h : isDigitCh c = true) : isJWs c = false := by
  simp only [isDigitCh, Bool.and_eq_true, decide_eq_true_eq] at h
  cases hw : isJWs c
  · rfl
  · rcases isJWs_toNat hw with h2 | h2 | h2 | h2 <;> omega

theorem digit_toNat_bounds {c : Char} (h : isDigitCh c = true) :
    48 ≤ c.toNat ∧ c.toNat ≤ 57 := by
  simpa [isDigitCh, Bool.and_eq_true, decide_eq_true_eq] using h

theorem intChars_head (n : Int) :
    ∃ c cs, intChars n = c :: cs ∧ (c = minusCh ∨ isDigitCh c = true) := by
  obtain ⟨hne, hdig, _⟩ := natChars_spec n.natAbs
  obtain ⟨c, cs, hcons⟩ := List.exists_cons_of_ne_nil hne
  by_cases h : n < 0
  · exact ⟨minusCh, natChars n.natAbs, by rw [intChars, if_pos h], Or.inl rfl⟩
  · refine ⟨c, cs, by rw [intChars, if_neg h, hcons], Or.inr (hdig c ?_)⟩
    rw [hcons]
    exact List.mem_cons_self c cs

/-- Head of a serialized value: never whitespace, never a closing bracket or
brace, so the parser's dispatch always distinguishes it from a delimiter. -/
theorem serV_head (lvl : Nat) (j : JVal) :
    ∃ c cs, serV lvl j = c :: cs ∧ isJWs c = false ∧ c ≠ rbrack ∧ c ≠ rbrace ∧
      c ≠ ',' := by
  cases j with
  | null => exact ⟨'n', _, rfl, by decide⟩
  | bool b =>
    cases b with
    | true => exact ⟨'t', _, rfl, by decide⟩
    | false => exact ⟨'f', _, rfl, by decide⟩
  | num n =>
    obtain ⟨c, cs, hcons, hc⟩ := intChars_head n
    refine ⟨c, cs, hcons, ?_, ?_, ?_, ?_⟩
    · rcases hc with h | h
      · subst h; decide
      · exact not_isJWs_of_digit h
    · rcases hc with h | h
      · subst h; decide
      · have := digit_toNat_bounds h
        exact ne_of_toNat_ne (by simp [rbrack, toNat_ofNat_of_lt]; omega)
    · rcases hc with h | h
      · subst h; decide
      · have := digit_toNat_bounds h
        exact ne_of_toNat_ne (by simp [rbrace, toNat_ofNat_of_lt]; omega)
    · rcases hc with h | h
      · subst h; decide
      · have := digit_toNat_bounds h
        exact ne_of_toNat_ne (by simp; omega)
  | str s => exact ⟨dquote, _, rfl, by decide⟩
  | arr t =>
    cases t with
    | nil => exact ⟨lbrack, _, rfl, by decide⟩
    | cons h t2 => exact ⟨lbrack, _, rfl, by decide⟩
  | obj t =>
    cases t with
    | nil => exact ⟨lbrace, _, rfl, by decide⟩
    | cons k v t2 => exact ⟨lbrace, _, rfl, by decide⟩

theorem parseVal_zero (s : List Char) : parseVal 0 s = none := rfl

theorem parseElems_zero (s : List Char) : parseElems 0 s = none := rfl

theorem parseMembers_zero (s : List Char) : parseMembers 0 s = none := rfl

theorem parseVal_ws (f : Nat) (w s : List Char) (h : allJWs w) :
    parseVal f (w ++ s) = parseVal f s := by
  cases f with
  | zero => rfl
  | succ g =>
    simp only [parseVal, parseStep]
    rw [skipWs_append_ws w s h]

theorem parseMembers_ws (f : Nat) (w s : List Char) (h : allJWs w) :
    parseMembers f (w ++ s) = parseMembers f s := by
  cases f with
  | zero => rfl
  | succ g =>
    simp only [parseMembers, parseStep]
    rw [skipWs_append_ws w s h]

theorem parseVal_succ_quote (g : Nat) (r : List Char) :
    parseVal (g + 1) (dquote :: r) =
      (match parseStringBody r with
        | some p => some (JVal.str p.1, p.2)
        | none => none) := rfl

theorem parseVal_succ_arr (g : Nat) (r : List Char) :
    parseVal (g + 1) (lbrack :: r) =
      (match skipWs r with
        | c2 :: r2 =>
          if c2 = rbrack then some (JVal.arr JArr.nil, r2)
          else
            match parseElems g (c2 :: r2) with
            | some p => some (JVal.arr p.1, p.2)
            | none => none
        | [] => none) := rfl

theorem parseVal_succ_obj (g : Nat) (r : List Char) :
    parseVal (g + 1) (lbrace :: r) =
      (match skipWs r with
        | c2 :: r2 =>
          if c2 = rbrace then some (JVal.obj JObj.nil, r2)
          else
            match parseMembers g (c2 :: r2) with
            | some p => some (JVal.obj p.1, p.2)
            | none => none
        | [] => none) := rfl

theorem parseVal_succ_null (g : Nat) (rest : List Char) :
    parseVal (g + 1) ('n' :: 'u' :: 'l' :: 'l' :: rest) = some (JVal.null, rest) := by
  simp only [parseVal, parseStep]
  rw [skipWs_cons_of_not _ (by decide)]
  simp +decide [List.isPrefixOf_cons₂, List.isPrefixOf]

theorem parseVal_succ_true (g : Nat) (rest : List Char) :
    parseVal (g + 1) ('t' :: 'r' :: 'u' :: 'e' :: rest) = some (JVal.bool true, rest) := by
  simp only [parseVal, parseStep]
  rw [skipWs_cons_of_not _ (by decide)]
  simp +decide [List.isPrefixOf_cons₂, List.isPrefixOf]

theorem parseVal_succ_false (g : Nat) (rest : List Char) :
    parseVal (g + 1) ('f' :: 'a' :: 'l' :: 's' :: 'e' :: rest) =
      some (JVal.bool false, rest) := by
  simp only [parseVal, parseStep]
  rw [skipWs_cons_of_not _ (by decide)]
  simp +decide [List.isPrefixOf_cons₂, List.isPrefixOf]

theorem parseVal_succ_num (g : Nat) (c : Char) (r : List Char)
    (hc : c = minusCh ∨ isDigitCh c = true) :
    parseVal (g + 1) (c :: r) =
      (match parseNumber (c :: r) with
        | some p => some (JVal.num p.1, p.2)
        | none => none) := by
  have hb : 45 ≤ c.toNat ∧ c.toNat ≤ 57 := by
    rcases hc with h | h
    · subst h; decide
    · have := digit_toNat_bounds h; omega
  have hw : isJWs c = false := by
    rcases hc with h | h
    · subst h; decide
    · exact not_isJWs_of_digit h
  have hq : ¬(c = dquote) :=
    ne_of_toNat_ne (by simp only [show dquote.toNat = 34 from by decide]; omega)
  have hlk : ¬(c = lbrack) :=
    ne_of_toNat_ne (by simp only [show lbrack.toNat = 91 from by decide]; omega)
  have hlb : ¬(c = lbrace) :=
    ne_of_toNat_ne (by simp only [show lbrace.toNat = 123 from by decide]; omega)
  have hn : List.isPrefixOf ['n', 'u', 'l', 'l'] (c :: r) = false := by
    rw [List.isPrefixOf_cons₂]
    have : ('n' == c) = false := beq_eq_false_iff_ne.mpr
      (Ne.symm (ne_of_toNat_ne (by simp only [show ('n').toNat = 110 from by decide]; omega)))
    simp [this]
  have ht : List.isPrefixOf ['t', 'r', 'u', 'e'] (c :: r) = false := by
    rw [List.isPrefixOf_cons₂]
    have : ('t' == c) = false := beq_eq_false_iff_ne.mpr
      (Ne.symm (ne_of_toNat_ne (by simp only [show ('t').toNat = 116 from by decide]; omega)))
    simp [this]
  have hf : List.isPrefixOf ['f', 'a', 'l', 's', 'e'] (c :: r) = false := by
    rw [List.isPrefixOf_cons₂]
    have : ('f' == c) = false := beq_eq_false_iff_ne.mpr
      (Ne.symm (ne_of_toNat_ne (by simp only [show ('f').toNat = 102 from by decide]; omega)))
    simp [this]
  simp only [parseVal, parseStep]
  rw [skipWs_cons_of_not r hw]
  simp only [hn, ht, hf, if_neg hq, if_neg hlk, if_neg hlb, Bool.false_eq_true, if_false]

theorem parseElems_succ (g : Nat) (s : List Char) :
    parseElems (g + 1) s =
      (match parseVal g s with
        | none => none
        | some (v, r) =>
          match skipWs r with
          | c :: r2 =>
            if c = ',' then
              match parseElems g r2 with
              | some (tl, r3) => some (JArr.cons v tl, r3)
              | none => none
            else if c = rbrack then some (JArr.cons v JArr.nil, r2)
            else none
          | [] => none) := rfl

theorem parseMembers_succ (g : Nat) (s : List Char) :
    parseMembers (g + 1) s =
      (match skipWs s with
        | c :: r =>
          if c = dquote then
            match parseStringBody r with
            | none => none
            | some (k, r1) =>
              match skipWs r1 with
              | c2 :: r2 =>
                if c2 = ':' then
                  match parseVal g r2 with
                  | none => none
                  | some (v, r3) =>
                    match skipWs r3 with
                    | c3 :: r4 =>
                      if c3 = ',' then
                        match parseMembers g r4 with
                        | some (tl, r5) => some (JObj.cons k v tl, r5)
                        | none => none
                      else if c3 = rbrace then some (JObj.cons k v JObj.nil, r4)
                      else none
                    | [] => none
                else none
              | [] => none
          else none
        | [] => none) := rfl

theorem parseElems_ws (f : Nat) (w s : List Char) (h : allJWs w) :
    parseElems f (w ++ s) = parseElems f s := by
  cases f with
  | zero => rfl
  | succ g => rw [parseElems_succ, parseElems_succ, parseVal_ws g w s h]

theorem headSafe_cons {c : Char} (rest : List Char) (h : isDigitCh c = false) :
    headSafe (c :: rest) := h

theorem headSafe_ws_append {w : List Char} (hw : allJWs w) {z : Char} (rest : List Char)
    (hz : isDigitCh z = false) : headSafe (w ++ z :: rest) := by
  cases w with
  | nil => exact hz
  | cons c cw => exact isJWs_not_digit (hw c (List.mem_cons_self c cw))

mutual

/-- Parsing the serialization of a value returns the value and the untouched
tail, for any sufficient fuel and any tail that cannot extend a number. -/
theorem rtV : ∀ (j : JVal) (f lvl : Nat) (rest : List Char),
    fuelV j ≤ f → headSafe rest →
    parseVal f (serV lvl j ++ rest) = some (j, rest)
  | .null, f, lvl, rest, hfuel, _ => by
    obtain ⟨g, rfl⟩ : ∃ g, f = g + 1 := ⟨f - 1, by simp [fuelV] at hfuel; omega⟩
    rw [show serV lvl JVal.null = nullChars from by simp [serV]]
    exact parseVal_succ_null g rest
  | .bool true, f, lvl, rest, hfuel, _ => by
    obtain ⟨g, rfl⟩ : ∃ g, f = g + 1 := ⟨f - 1, by simp [fuelV] at hfuel; omega⟩
    rw [show serV lvl (JVal.bool true) = trueChars from by simp [serV]]
    exact parseVal_succ_true g rest
  | .bool false, f, lvl, rest, hfuel, _ => by
    obtain ⟨g, rfl⟩ : ∃ g, f = g + 1 := ⟨f - 1, by simp [fuelV] at hfuel; omega⟩
    rw [show serV lvl (JVal.bool false) = falseChars from by simp [serV]]
    exact parseVal_succ_false g rest
  | .num n, f, lvl, rest, hfuel, hsafe => by
    obtain ⟨g, rfl⟩ : ∃ g, f = g + 1 := ⟨f - 1, by simp [fuelV] at hfuel; omega⟩
    rw [show serV lvl (JVal.num n) = intChars n from by simp [serV]]
    obtain ⟨c, cs, hcons, hc⟩ := intChars_head n
    rw [hcons, List.cons_append, parseVal_succ_num g c (cs ++ rest) hc,
      ← List.cons_append, ← hcons, parseNumber_intChars n rest hsafe]
  | .str s, f, lvl, rest, hfuel, _ => by
    obtain ⟨g, rfl⟩ : ∃ g, f = g + 1 := ⟨f - 1, by simp [fuelV] at hfuel; omega⟩
    rw [show serV lvl (JVal.str s) = dquote :: escString s ++ [dquote] from by simp [serV]]
    rw [show (dquote :: escString s ++ [dquote]) ++ rest =
      dquote :: (escString s ++ (dquote :: rest)) from by simp]
    rw [parseVal_succ_quote g, parseStringBody_esc s rest]
  | .arr .nil, f, lvl, rest, hfuel, _ => by
    obtain ⟨g, rfl⟩ : ∃ g, f = g + 1 := ⟨f - 1, by simp [fuelV] at hfuel; omega⟩
    rw [show serV lvl (JVal.arr JArr.nil) = [lbrack, rbrack] from by simp [serV]]
    rw [show ([lbrack, rbrack] : List Char) ++ rest = lbrack :: rbrack :: rest from rfl]
    rw [parseVal_succ_arr g, skipWs_cons_of_not _ (by decide)]
    simp
  | .arr (.cons h t), f, lvl, rest, hfuel, hsafe => by
    have hfe : fuelE (JArr.cons h t) + 1 ≤ f := by
      simp only [fuelV] at hfuel
      omega
    obtain ⟨g, rfl⟩ : ∃ g, f = g + 1 := ⟨f - 1, by omega⟩
    rw [show serV lvl (JVal.arr (JArr.cons h t)) =
      lbrack :: (nlIndent (lvl + 1) ++ serV (lvl + 1) h ++ serArrTail (lvl + 1) t
        ++ nlIndent lvl ++ [rbrack]) from by simp [serV]]
    rw [List.cons_append, parseVal_succ_arr g]
    rw [show (nlIndent (lvl + 1) ++ serV (lvl + 1) h ++ serArrTail (lvl + 1) t
        ++ nlIndent lvl ++ [rbrack]) ++ rest =
      nlIndent (lvl + 1) ++ (serV (lvl + 1) h ++ (serArrTail (lvl + 1) t
        ++ (nlIndent lvl ++ rbrack :: rest))) from by simp]
    rw [skipWs_append_ws _ _ (allJWs_nlIndent (lvl + 1))]
    obtain ⟨c0, cs0, hhead, hw0, hbk0, _, _⟩ := serV_head (lvl + 1) h
    rw [hhead, List.cons_append, skipWs_cons_of_not _ hw0]
    simp only []
    rw [if_neg hbk0]
    rw [← List.cons_append, ← hhead]
    rw [rtE h t g (lvl + 1) (nlIndent lvl) rest (by omega) (allJWs_nlIndent lvl) hsafe]
  | .obj .nil, f, lvl, rest, hfuel, _ => by
    obtain ⟨g, rfl⟩ : ∃ g, f = g + 1 := ⟨f - 1, by simp [fuelV] at hfuel; omega⟩
    rw [show serV lvl (JVal.obj JObj.nil) = [lbrace, rbrace] from by simp [serV]]
    rw [show ([lbrace, rbrace] : List Char) ++ rest = lbrace :: rbrace :: rest from rfl]
    rw [parseVal_succ_obj g, skipWs_cons_of_not _ (by decide)]
    simp
  | .obj (.cons k v t), f, lvl, rest, hfuel, hsafe => by
    have hfm : fuelM (JObj.cons k v t) + 1 ≤ f := by
      simp only [fuelV] at hfuel
      omega
    obtain ⟨g, rfl⟩ : ∃ g, f = g + 1 := ⟨f - 1, by omega⟩
    rw [show serV lvl (JVal.obj (JObj.cons k v t)) =
      lbrace :: (nlIndent (lvl + 1) ++ serKey k ++ serV (lvl + 1) v
        ++ serObjTail (lvl + 1) t ++ nlIndent lvl ++ [rbrace]) from by simp [serV]]
    rw [List.cons_append, parseVal_succ_obj g]
    rw [show (nlIndent (lvl + 1) ++ serKey k ++ serV (lvl + 1) v
        ++ serObjTail (lvl + 1) t ++ nlIndent lvl ++ [rbrace]) ++ rest =
      nlIndent (lvl + 1) ++ (serKey k ++ (serV (lvl + 1) v ++ (serObjTail (lvl + 1) t
        ++ (nlIndent lvl ++ rbrace :: rest)))) from by simp]
    rw [skipWs_append_ws _ _ (allJWs_nlIndent (lvl + 1))]
    rw [show serKey k ++ (serV (lvl + 1) v ++ (serObjTail (lvl + 1) t
        ++ (nlIndent lvl ++ rbrace :: rest))) =
      dquote :: (escString k ++ [dquote, ':', ' '] ++ (serV (lvl + 1) v
        ++ (serObjTail (lvl + 1) t ++ (nlIndent lvl ++ rbrace :: rest)))) from by
      simp [serKey]]
    rw [skipWs_cons_of_not _ (by decide)]
    simp only []
    rw [if_neg (by decide)]
    rw [show dquote :: (escString k ++ [dquote, ':', ' '] ++ (serV (lvl + 1) v
        ++ (serObjTail (lvl + 1) t ++ (nlIndent lvl ++ rbrace :: rest)))) =
      serKey k ++ (serV (lvl + 1) v ++ (serObjTail (lvl + 1) t
        ++ (nlIndent lvl ++ rbrace :: rest))) from by simp [serKey]]
    rw [rtM k v t g (lvl + 1) (nlIndent lvl) rest (by omega) (allJWs_nlIndent lvl) hsafe]
  termination_by j _ _ _ _ _ => sizeOf j

/-- Parsing the serialized elements of a non-empty array (value, separators,
closing bracket) returns the element list and the tail. -/
theorem rtE : ∀ (h : JVal) (t : JArr) (f lvl : Nat) (w rest : List Char),
    fuelE (JArr.cons h t) ≤ f → allJWs w → headSafe rest →
    parseElems f (serV lvl h ++ (serArrTail lvl t ++ (w ++ rbrack :: rest))) =
      some (JArr.cons h t, rest)
  | h, t, f, lvl, w, rest, hfuel, hws, hsafe => by
    have hf1 : fuelV h + 1 ≤ f := by
      simp only [fuelE] at hfuel
      omega
    obtain ⟨g, rfl⟩ : ∃ g, f = g + 1 := ⟨f - 1, by omega⟩
    rw [parseElems_succ g]
    have hsafeX : headSafe (serArrTail lvl t ++ (w ++ rbrack :: rest)) := by
      cases t with
      | nil =>
        rw [show serArrTail lvl JArr.nil = [] from by simp [serArrTail], List.nil_append]
        exact headSafe_ws_append hws rest (by decide)
      | cons h2 t2 =>
        rw [show serArrTail lvl (JArr.cons h2 t2) =
          ',' :: (nlIndent lvl ++ serV lvl h2 ++ serArrTail lvl t2) from by simp [serArrTail]]
        exact headSafe_cons _ (by decide)
    rw [rtV h g lvl _ (by omega) hsafeX]
    simp only []
    cases t with
    | nil =>
      rw [show serArrTail lvl JArr.nil = [] from by simp [serArrTail], List.nil_append]
      rw [skipWs_append_ws _ _ hws, skipWs_cons_of_not _ (by decide)]
      simp only []
      rw [if_neg (by decide)]
      simp
    | cons h2 t2 =>
      have hfe2 : fuelE (JArr.cons h2 t2) ≤ g := by
        simp only [fuelE] at hfuel ⊢
        omega
      rw [show serArrTail lvl (JArr.cons h2 t2) =
        ',' :: (nlIndent lvl ++ serV lvl h2 ++ serArrTail lvl t2) from by simp [serArrTail]]
      rw [show (',' :: (nlIndent lvl ++ serV lvl h2 ++ serArrTail lvl t2)) ++
          (w ++ rbrack :: rest) =
        ',' :: (nlIndent lvl ++ (serV lvl h2 ++ (serArrTail lvl t2 ++ (w ++ rbrack :: rest))))
          from by simp]
      rw [skipWs_cons_of_not _ (by decide)]
      simp only []
      rw [if_true]
      rw [parseElems_ws g _ _ (allJWs_nlIndent lvl)]
      rw [rtE h2 t2 g lvl w rest hfe2 hws hsafe]
  termination_by h t _ _ _ _ _ _ _ => sizeOf (JArr.cons h t)

/-- Parsing the serialized members of a non-empty object (key, value,
separators, closing brace) returns the member list and the tail. -/
theorem rtM : ∀ (k : List Char) (v : JVal) (t : JObj) (f lvl : Nat) (w rest : List Char),
    fuelM (JObj.cons k v t) ≤ f → allJWs w → headSafe rest →
    parseMembers f (serKey k ++ (serV lvl v ++ (serObjTail lvl t ++ (w ++ rbrace :: rest)))) =
      some (JObj.cons k v t, rest)
  | k, v, t, f, lvl, w, rest, hfuel, hws, hsafe => by
    have hf1 : fuelV v + 1 ≤ f := by
      simp only [fuelM] at hfuel
      omega
    obtain ⟨g, rfl⟩ : ∃ g, f = g + 1 := ⟨f - 1, by omega⟩
    rw [parseMembers_succ g]
    rw [show serKey k ++ (serV lvl v ++ (serObjTail lvl t ++ (w ++ rbrace :: rest))) =
      dquote :: (escString k ++ (dquote :: (':' :: (' ' :: (serV lvl v
        ++ (serObjTail lvl t ++ (w ++ rbrace :: rest))))))) from by simp [serKey]]
    rw [skipWs_cons_of_not _ (by decide)]
    simp only []
    rw [if_true]
    rw [parseStringBody_esc k _]
    simp only []
    rw [skipWs_cons_of_not _ (by decide)]
    simp only []
    rw [if_true]
    rw [show (' ' :: (serV lvl v ++ (serObjTail lvl t ++ (w ++ rbrace :: rest)))) =
      [' '] ++ (serV lvl v ++ (serObjTail lvl t ++ (w ++ rbrace :: rest))) from rfl]
    rw [parseVal_ws g [' '] _ (by intro x hx; simp at hx; subst hx; decide)]
    have hsafeY : headSafe (serObjTail lvl t ++ (w ++ rbrace :: rest)) := by
      cases t with
      | nil =>
        rw [show serObjTail lvl JObj.nil = [] from by simp [serObjTail], List.nil_append]
        exact headSafe_ws_append hws rest (by decide)
      | cons k2 v2 t2 =>
        rw [show serObjTail lvl (JObj.cons k2 v2 t2) =
          ',' :: (nlIndent lvl ++ serKey k2 ++ serV lvl v2 ++ serObjTail lvl t2) from by
          simp [serObjTail]]
        exact headSafe_cons _ (by decide)
    rw [rtV v g lvl _ (by omega) hsafeY]
    simp only []
    cases t with
    | nil =>
      rw [show serObjTail lvl JObj.nil = [] from by simp [serObjTail], List.nil_append]
      rw [skipWs_append_ws _ _ hws, skipWs_cons_of_not _ (by decide)]
      simp only []
      rw [if_neg (by decide)]
      simp
    | cons k2 v2 t2 =>
      have hfm2 : fuelM (JObj.cons k2 v2 t2) ≤ g := by
        simp only [fuelM] at hfuel ⊢
        omega
      rw [show serObjTail lvl (JObj.cons k2 v2 t2) =
        ',' :: (nlIndent lvl ++ serKey k2 ++ serV lvl v2 ++ serObjTail lvl t2) from by
        simp [serObjTail]]
      rw [show (',' :: (nlIndent lvl ++ serKey k2 ++ serV lvl v2 ++ serObjTail lvl t2)) ++
          (w ++ rbrace :: rest) =
        ',' :: (nlIndent lvl ++ (serKey k2 ++ (serV lvl v2 ++ (serObjTail lvl t2
          ++ (w ++ rbrace :: rest))))) from by simp]
      rw [skipWs_cons_of_not _ (by decide)]
      simp only []
      rw [if_true]
      rw [parseMembers_ws g _ _ (allJWs_nlIndent lvl)]
      rw [rtM k2 v2 t2 g lvl w rest hfm2 hws hsafe]
  termination_by k v t _ _ _ _ _ _ _ => sizeOf (JObj.cons k v t)

end

mutual

theorem fuelV_le_len : ∀ (j : JVal) (lvl : Nat), fuelV j ≤ (serV lvl j).length
  | .null, lvl => by simp [fuelV, serV, nullChars]
  | .bool true, lvl => by simp [fuelV, serV, trueChars]
  | .bool false, lvl => by simp [fuelV, serV, falseChars]
  | .num n, lvl => by
    obtain ⟨c, cs, hcons, _⟩ := intChars_head n
    simp [fuelV, serV, hcons]
  | .str s, lvl => by simp [fuelV, serV]
  | .arr .nil, lvl => by simp [fuelV, serV]
  | .arr (.cons h t), lvl => by
    have h1 := fuelV_le_len h (lvl + 1)
    have h2 := fuelE_le_len t (lvl + 1)
    simp only [fuelV, fuelE, serV, List.length_cons, List.length_append, nlIndent,
      List.length_replicate, List.length_singleton]
    omega
  | .obj .nil, lvl => by simp [fuelV, serV]
  | .obj (.cons k v t), lvl => by
    have h1 := fuelV_le_len v (lvl + 1)
    have h2 := fuelM_le_len t (lvl + 1)
    simp only [fuelV, fuelM, serV, List.length_cons, List.length_append, nlIndent,
      List.length_replicate, List.length_singleton]
    omega

theorem fuelE_le_len : ∀ (t : JArr) (lvl : Nat), fuelE t ≤ (serArrTail lvl t).length + 1
  | .nil, lvl => by simp [fuelE, serArrTail]
  | .cons h t, lvl => by
    have h1 := fuelV_le_len h lvl
    have h2 := fuelE_le_len t lvl
    simp only [fuelE, serArrTail, List.length_cons, List.length_append, nlIndent,
      List.length_replicate]
    omega

theorem fuelM_le_len : ∀ (t : JObj) (lvl : Nat), fuelM t ≤ (serObjTail lvl t).length + 1
  | .nil, lvl => by simp [fuelM, serObjTail]
  | .cons k v t, lvl => by
    have h1 := fuelV_le_len v lvl
    have h2 := fuelM_le_len t lvl
    simp only [fuelM, serObjTail, List.length_cons, List.length_append, nlIndent,
      List.length_replicate]
    omega

end

/-- C8: serializing any JSON-representable key-points structure with the
export operation (`json.dumps(..., ensure_ascii=False, indent=2)`) and parsing
the result back with `json.loads` yields a structure field-for-field equal to
the in-memory original. -/
theorem keypoints_export_roundtrip (points : JVal) : loads (dumps points) = some points := by
  rw [loads, dumps]
  have hlen : fuelV points ≤ (serV 0 points).length + 1 := by
    have := fuelV_le_len points 0
    omega
  have h := rtV points ((serV 0 points).length + 1) 0 [] hlen trivial
  rw [List.append_nil] at h
  rw [h]
  rfl

theorem beforeSub_subset (pat : List Char) :
    ∀ s t, beforeSub pat s = some t → ∀ c ∈ t, c ∈ s := by
  intro s
  induction s with
  | nil =>
    intro t h c hc
    rw [beforeSub] at h
    split at h
    · cases h
      cases hc
    · cases h
  | cons c0 r ih =>
    intro t h c hc
    rw [beforeSub] at h
    split at h
    · cases h
      cases hc
    · revert h
      cases hb : beforeSub pat r with
      | none => intro h; cases h
      | some t2 =>
        intro h
        cases h
        rcases List.mem_cons.mp hc with h2 | h2
        · subst h2
          exact List.mem_cons_self c r
        · exact List.mem_cons_of_mem c0 (ih t2 hb c h2)

theorem trimPyWs_subset (s : List Char) : ∀ c ∈ trimPyWs s, c ∈ s := by
  intro c hc
  rw [trimPyWs] at hc
  rw [List.mem_reverse] at hc
  have h1 := List.dropWhile_sublist (l := (s.dropWhile isPyWs).reverse) (p := isPyWs)
  have h2 := h1.subset hc
  rw [List.mem_reverse] at h2
  exact (List.dropWhile_sublist (l := s) (p := isPyWs)).subset h2

theorem findFencedJson_subset :
    ∀ s inner, findFencedJson s = some inner → ∀ c ∈ inner, c ∈ s := by
  intro s
  induction s with
  | nil => intro inner h; cases h
  | cons c0 r ih =>
    intro inner h c hc
    rw [findFencedJson] at h
    split at h
    · revert h
      cases hb : beforeSub ticks ((c0 :: r).drop 7) with
      | some t0 =>
        intro h
        cases h
        have h1 := trimPyWs_subset t0 c hc
        have h2 := beforeSub_subset ticks _ t0 hb c h1
        exact List.drop_subset 7 (c0 :: r) h2
      | none =>
        intro h
        exact List.mem_cons_of_mem c0 (ih inner h c hc)
    · exact List.mem_cons_of_mem c0 (ih inner h c hc)

theorem recoverCandidate_nil_of_no_brace (content : List Char)
    (h : ∀ c ∈ content, c ≠ lbrace) : recoverCandidate content = [] := by
  rw [recoverCandidate]
  have hbody : ∀ body : List Char, (∀ c ∈ body, c ≠ lbrace) →
      (((body.dropWhile (fun c => c != lbrace)).reverse.dropWhile
        (fun c => c != rbrace)).reverse : List Char) = [] := by
    intro body hb
    have hd : body.dropWhile (fun c => c != lbrace) = [] := by
      rw [List.dropWhile_eq_nil_iff]
      intro x hx
      simp [hb x hx]
    rw [hd]
    rfl
  cases hf : findFencedJson content with
  | none =>
    simp only [hf]
    exact hbody content h
  | some inner =>
    simp only [hf]
    exact hbody inner (fun c hc => h c (findFencedJson_subset content inner hf c hc))

theorem recoverJson_none_of_no_brace (content : List Char)
    (h : ∀ c ∈ content, c ≠ lbrace) : recoverJson content = none := by
  rw [recoverJson, recoverCandidate_nil_of_no_brace content h]
  rfl

/-- C2: the JSON recovery step of `extract_key_points` computes its candidate
by taking the contents of a json-tagged fenced block when present (the whole
reply otherwise), stripping everything before the first opening brace and
after the last closing brace, and parsing the remainder; on the reply
`Here you go:` followed by a json-fenced block holding the title object and
trailing prose it yields that object, and on any reply containing no opening
brace at all it returns, without raising, the error-flagged result carrying
the original raw reply. -/
theorem json_recovery_spec :
    recoverCandidate exampleReply = "\x7b\"title\":\"T\"\x7d".toList ∧
    recoverJson exampleReply = some exampleParsed ∧
    (∀ content : List Char, (∀ c ∈ content, c ≠ lbrace) →
      processReply content = KPResult.err jsonErrMsg (some content)) := by
  refine ⟨rfl, rfl, fun content h => ?_⟩
  rw [processReply, recoverJson_none_of_no_brace content h]

/-- Witness for C2's general part at a reply with no JSON object. -/
theorem json_recovery_spec_witness :
    processReply "no json here".toList =
      KPResult.err jsonErrMsg (some "no json here".toList) :=
  json_recovery_spec.2.2 "no json here".toList (by decide)
